import Mathlib

/-!
Shallow embedding of the TimelineAssembler assembly engine and EDL codec.

The definitions below are translated from the two JavaScript sources of the
repository: the Cloud Functions file (exports `autoAssembleTimeline`,
`exportTimelineEDL`, `generateCMX3600EDL`) and the `TimelineAssembler` /
`Timeline` client class (`autoAssemble`, `exportEDL`, `_generateCMX3600EDL`,
`addClip`).  JS numbers are modelled as rationals (the concrete arithmetic
performed by the engine on the inputs considered here is exact in binary
floating point), JS string-keyed metadata objects as association lists, and
absent values as `Option`.  Wall-clock identifier generation
(`clip-${Date.now()}` and the like) is replaced by fixed placeholder ids and
the `modified` timestamp field is omitted: no claim depends on either.
-/

/-- Transition annotation carried by a clip, the `{type, duration}` object the
assembly loop stores in `transitions.in` (source field name `duration`). -/
structure ClipTransition where
  type : String
  duration : ℚ
deriving DecidableEq

/-- The `transitions` object of a clip.  The JS fields are named `in` and
`out`; those are reserved words in Lean, so they are embedded as `tin` and
`tout`. -/
structure ClipTransitions where
  tin : Option ClipTransition
  tout : Option ClipTransition
deriving DecidableEq

/-- A placed clip, as built by the assembly loop and by `addClip`. -/
structure Clip where
  id : String
  assetId : String
  startTime : ℚ
  endTime : ℚ
  inPoint : ℚ
  outPoint : ℚ
  transitions : ClipTransitions
deriving DecidableEq

/-- A track: an id, a type string (`video`, `audio`, `graphics`) and its
stored clip sequence. -/
structure Track where
  id : String
  type : String
  clips : List Clip
deriving DecidableEq

/-- A timeline value as stored by the tool.  A missing `tracks` field of the
JS object is represented by the empty list. -/
structure Timeline where
  id : String
  name : String
  framerate : ℕ
  resolution : String
  duration : ℚ
  tracks : List Track
deriving DecidableEq

/-- Asset metadata: the declared media `duration` and `timestamp` (absent
values are `none`), the remaining string-valued keys (`scene`, ... ) as an
association list, and the optional nested `analysis` object produced by the
content-analysis service, again as string-valued keys. -/
structure AssetMetadata where
  duration : Option ℚ
  timestamp : Option ℚ
  fields : List (String × String)
  analysis : Option (List (String × String))
deriving DecidableEq

/-- A media asset: its id, the catalog-supplied ingestion time `uploadTime`,
and its metadata. -/
structure Asset where
  id : String
  uploadTime : ℚ
  metadata : AssetMetadata
deriving DecidableEq

/-- Options of the assembly operation. -/
structure AssemblyOptions where
  strategy : String
  groupBy : Option String
  addTransitions : Bool
deriving DecidableEq

/-- Result of a successful assembly: the fresh track list and the computed
timeline duration (the source also writes these into the stored timeline). -/
structure AssembleResult where
  tracks : List Track
  duration : ℚ
deriving DecidableEq

/-- The only error the assembly path raises: the `failed-precondition` throw
for an empty asset list (the NoAssetsError of the specification). -/
inductive AssembleError where
  | noAssets
deriving DecidableEq

/-- Errors of the EDL export path: the `failed-precondition` throw for a
timeline without tracks (the NoClipsError of the specification) and the
unsupported-format throw. -/
inductive ExportError where
  | noClips
  | unsupportedFormat (format : String)
deriving DecidableEq

/-- Error of `addClip`: the requested track id does not occur. -/
inductive AddClipError where
  | trackNotFound
deriving DecidableEq

deriving instance DecidableEq for Except

/-- Generic extractor used to name concrete successful results in closed
statements. -/
def okOr {ε α : Type} (x : Except ε α) (d : α) : α :=
  match x with
  | .ok r => r
  | .error _ => d

/-- Association-list lookup for JS string-keyed objects. -/
def lookupStr (l : List (String × String)) (k : String) : Option String :=
  (l.find? (fun e => e.1 == k)).map (fun e => e.2)

/-- JS truthiness of an optional string value: an absent value and the empty
string are falsy, every other string is truthy. -/
def strTruthy : Option String → Bool
  | some v => v != ""
  | none => false

/-- Group-key resolution of `autoAssembleTimeline`: take `metadata[groupBy]`
when truthy, else `metadata.analysis[groupBy]` when `analysis` exists and the
value is truthy, else the literal string `unknown`. -/
def resolveGroupKey (groupBy : String) (a : Asset) : String :=
  let mv := lookupStr a.metadata.fields groupBy
  let av := match a.metadata.analysis with
    | some an => lookupStr an groupBy
    | none => none
  if strTruthy mv then mv.getD "unknown"
  else if strTruthy av then av.getD "unknown"
  else "unknown"

/-- Modelled from the claim: the lookup chain that takes the first DEFINED
value, `metadata[groupBy]`, then `metadata.analysis[groupBy]`, then the
literal `unknown`. -/
def specDefinedChain (groupBy : String) (a : Asset) : String :=
  match lookupStr a.metadata.fields groupBy with
  | some v => v
  | none =>
    match a.metadata.analysis with
    | some an => (lookupStr an groupBy).getD "unknown"
    | none => "unknown"

/-- The analysis fallback of the amended lookup chain: the analysis value when
defined and non-empty, else the literal `unknown`. -/
def specAnalysisTruthy (groupBy : String) (a : Asset) : String :=
  match a.metadata.analysis with
  | some an =>
    match lookupStr an groupBy with
    | some w => if w = "" then "unknown" else w
    | none => "unknown"
  | none => "unknown"

/-- The amended lookup chain: the first defined AND non-empty value of
`metadata[groupBy]`, then `metadata.analysis[groupBy]`, else `unknown`. -/
def specTruthyChain (groupBy : String) (a : Asset) : String :=
  match lookupStr a.metadata.fields groupBy with
  | some v => if v = "" then specAnalysisTruthy groupBy a else v
  | none => specAnalysisTruthy groupBy a

/-- Decimal digit value of a character, `none` for a non-digit. -/
def charDigit (c : Char) : Option ℕ :=
  let n := c.toNat
  if 48 ≤ n ∧ n ≤ 57 then some (n - 48) else none

/-- Parse a run of decimal digits into a number. -/
def parseDigits : List Char → ℕ → Option ℕ
  | [], acc => some acc
  | c :: cs, acc =>
    match charDigit c with
    | some d => parseDigits cs (acc * 10 + d)
    | none => none

/-- Parse a non-empty all-digit string into a number. -/
def strToNat (s : String) : Option ℕ :=
  match s.data with
  | [] => none
  | c :: cs => parseDigits (c :: cs) 0

/-- Whether a JS object key is an array index: the canonical base-10 numeral
of an integer below 2^32 - 1.  Per the ECMAScript own-property enumeration
order, such keys are listed before all other string keys, in ascending
numeric order; `Object.values` follows that order. -/
def arrayIndexOf (s : String) : Option ℕ :=
  match strToNat s with
  | some n => if toString n = s ∧ n < 4294967295 then some n else none
  | none => none

/-- One step of the grouping loop: `groups[groupKey].push(asset)`, creating
the entry at the end of the object when the key is new. -/
def insertGrouped (gs : List (String × List Asset)) (k : String) (a : Asset) :
    List (String × List Asset) :=
  match gs with
  | [] => [(k, [a])]
  | e :: rest =>
    if e.1 = k then (e.1, e.2 ++ [a]) :: rest
    else e :: insertGrouped rest k a

/-- The `groups` object built by the grouping loop, as an insertion-ordered
association list. -/
def buildGroups (groupBy : String) (l : List Asset) : List (String × List Asset) :=
  l.foldl (fun gs a => insertGrouped gs (resolveGroupKey groupBy a) a) []

/-- Numeric value used to order array-index keys. -/
def idxVal (e : String × List Asset) : ℕ :=
  (arrayIndexOf e.1).getD 0

/-- Insertion step of the ascending sort of array-index keys. -/
def insertByIdx (e : String × List Asset) :
    List (String × List Asset) → List (String × List Asset)
  | [] => [e]
  | f :: fs => if idxVal e ≤ idxVal f then e :: f :: fs else f :: insertByIdx e fs

/-- Ascending sort of entries by numeric key value. -/
def sortByIdx (l : List (String × List Asset)) : List (String × List Asset) :=
  l.foldr insertByIdx []

/-- Enumeration order of `Object.values`: entries with array-index keys first,
in ascending numeric order, then the remaining entries in insertion order. -/
def jsObjectValues (gs : List (String × List Asset)) : List (List Asset) :=
  (sortByIdx (gs.filter (fun e => (arrayIndexOf e.1).isSome)) ++
      gs.filter (fun e => (arrayIndexOf e.1).isNone)).map (fun e => e.2)

/-- The grouping step of `autoAssembleTimeline` for a present `groupBy` key:
`Object.values(groups).flat()`. -/
def groupAssets (groupBy : String) (l : List Asset) : List Asset :=
  (jsObjectValues (buildGroups groupBy l)).flatten

/-- First-occurrence deduplication of a key sequence, preserving order. -/
def dedupFirst (l : List String) : List String :=
  l.foldl (fun acc k => if k ∈ acc then acc else acc ++ [k]) []

/-- Modelled from the claim: the concatenation of the groups in order of first
appearance of each group key, every group preserving the relative input order
of its assets. -/
def specGroupAssets (groupBy : String) (l : List Asset) : List Asset :=
  ((dedupFirst (l.map (resolveGroupKey groupBy))).map
      (fun k => l.filter (fun a => resolveGroupKey groupBy a == k))).flatten

/-- Canonical form of the groups object: one entry per distinct key in first
occurrence order, holding the input assets with that key in input order.
Proved equal to `buildGroups` below. -/
def canonGroups (g : String) (p : List Asset) : List (String × List Asset) :=
  (dedupFirst (p.map (resolveGroupKey g))).map
    (fun k => (k, p.filter (fun a => resolveGroupKey g a == k)))

/-- Grouping step of the pipeline: `if (groupBy) ...` — grouping runs only for
a present, truthy (non-empty) `groupBy` key, and is the identity otherwise. -/
def groupStep (groupBy : Option String) (l : List Asset) : List Asset :=
  match groupBy with
  | some g => if g = "" then l else groupAssets g l
  | none => l

/-- Comparison time of the chronological sort: `metadata.timestamp` when
truthy, else the ingestion `uploadTime` supplied by the catalog. -/
def sortTime (a : Asset) : ℚ :=
  match a.metadata.timestamp with
  | some t => if t = 0 then a.uploadTime else t
  | none => a.uploadTime

/-- Stable insertion of an asset into an already sorted prefix. -/
def insertSorted (a : Asset) : List Asset → List Asset
  | [] => [a]
  | b :: bs => if sortTime b ≤ sortTime a then b :: insertSorted a bs else a :: b :: bs

/-- Stable ascending sort by `sortTime` (the engine's chronological order). -/
def sortChronological (l : List Asset) : List Asset :=
  l.foldl (fun acc a => insertSorted a acc) []

/-- The strategy switch of `autoAssembleTimeline`: `chronological` sorts,
`semantic` is the identity placeholder, and the default branch silently keeps
the input order. -/
def sortStep (strategy : String) (l : List Asset) : List Asset :=
  match strategy with
  | "chronological" => sortChronological l
  | "semantic" => l
  | _ => l

/-- Clip-duration resolution of the placement loop, exactly as in the source:
`asset.metadata.duration || 5` (JS truthiness, so a missing or zero duration
falls back to the fixed 5-second default). -/
def resolveDuration (a : Asset) : ℚ :=
  match a.metadata.duration with
  | some d => if d = 0 then 5 else d
  | none => 5

/-- Modelled from the claim: `metadata.duration` when present and positive,
otherwise the 5-second default. -/
def specResolvedDuration (a : Asset) : ℚ :=
  match a.metadata.duration with
  | some d => if 0 < d then d else 5
  | none => 5

/-- The clip built for one asset at cursor position `t`.  `nonFirst` records
whether `tracks[0].clips` is already non-empty; only then, and only when
transitions were requested, is the dissolve transition with duration
`min(1.0, clipDuration / 4)` attached to `transitions.in`. -/
def mkClip (addT : Bool) (nonFirst : Bool) (t : ℚ) (a : Asset) : Clip :=
  let d := resolveDuration a
  { id := "clip"
    assetId := a.id
    startTime := t
    endTime := t + d
    inPoint := 0
    outPoint := d
    transitions :=
      if addT && nonFirst then
        { tin := some { type := "dissolve", duration := min 1 (d / 4) }, tout := none }
      else
        { tin := none, tout := none } }

/-- The placement loop of `autoAssembleTimeline`: walk the grouped assets with
the running cursor `currentTime`, emitting one contiguous clip per asset and
returning the clip list together with the final cursor (the new duration). -/
def placeLoop (addT : Bool) : List Asset → ℚ → Bool → List Clip × ℚ
  | [], t, _ => ([], t)
  | a :: rest, t, nonFirst =>
    let r := placeLoop addT rest (t + resolveDuration a) true
    (mkClip addT nonFirst t a :: r.1, r.2)

/-- The asset order in which clips are placed: the strategy sort followed by
the grouping step. -/
def orderedAssets (assets : List Asset) (opts : AssemblyOptions) : List Asset :=
  groupStep opts.groupBy (sortStep opts.strategy assets)

/-- The single fresh video track the assembly creates (`track-${Date.now()}`
replaced by a fixed placeholder id). -/
def assembleTrack (cs : List Clip) : Track :=
  { id := "track", type := "video", clips := cs }

/-- The assembly operation (`autoAssembleTimeline` Cloud Function): fail when
no assets exist, otherwise sort, group, and place every asset on one fresh
video track, returning the track list and the final cursor as duration. -/
def autoAssembleTimeline (assets : List Asset) (opts : AssemblyOptions) :
    Except AssembleError AssembleResult :=
  match assets with
  | [] => .error .noAssets
  | _ =>
    let placed := placeLoop opts.addTransitions (orderedAssets assets opts) 0 false
    .ok { tracks := [assembleTrack placed.1], duration := placed.2 }

/-- All clips of a track list, in track-then-clip order. -/
def allClips (ts : List Track) : List Clip :=
  (ts.map (fun tr => tr.clips)).flatten

/-- The `endTime` of the last clip of a clip list, `0` when there is none. -/
def lastEndTime (cs : List Clip) : ℚ :=
  match cs.getLast? with
  | some c => c.endTime
  | none => 0

/-- Zero left padding of a rendered number to the given width
(`String.padStart(w, "0")`). -/
def padZeros (w : ℕ) (s : String) : String :=
  String.mk (List.replicate (w - s.length) '0') ++ s

/-- Two-digit zero-padded field of a timecode. -/
def pad2 (n : ℤ) : String :=
  padZeros 2 (toString n)

/-- Three-digit zero-padded EDL event number. -/
def pad3 (n : ℕ) : String :=
  padZeros 3 (toString n)

/-- The JS `%` operator as used by the timecode formatter.  On the
nonnegative operands occurring there the truncated remainder of JS agrees
with `q - n * floor(q / n)`. -/
def jsMod (q n : ℚ) : ℚ :=
  q - n * (⌊q / n⌋ : ℤ)

/-- The four timecode fields computed by `formatTC` inside the CMX3600
generator: hours, minutes, seconds and frames. -/
def tcFields (fr : ℕ) (q : ℚ) : ℤ × ℤ × ℤ × ℤ :=
  (⌊q / 3600⌋, ⌊jsMod q 3600 / 60⌋, ⌊jsMod q 60⌋, ⌊jsMod q 1 * (fr : ℚ)⌋)

/-- The timecode formatter `formatTC` (the `secondsToTimecode` of the
specification): `HH:MM:SS:FF`, each field zero-padded to two digits. -/
def formatTC (fr : ℕ) (q : ℚ) : String :=
  let f := tcFields fr q
  pad2 f.1 ++ ":" ++ pad2 f.2.1 ++ ":" ++ pad2 f.2.2.1 ++ ":" ++ pad2 f.2.2.2

/-- One rendered EDL event block for a clip. -/
def clipEvent (fr : ℕ) (n : ℕ) (c : Clip) : String :=
  pad3 n ++ "  AX       V     C        " ++
    formatTC fr c.inPoint ++ " " ++ formatTC fr c.outPoint ++ " " ++
    formatTC fr c.startTime ++ " " ++ formatTC fr c.endTime ++
    "\n* FROM CLIP NAME: " ++ c.assetId ++ "\n\n"

/-- The CMX3600 generator: header, then one event block per clip with a
global 1-based event counter over all tracks in track-then-clip order.  The
server-side generator defaults a falsy framerate to 24
(`timeline.framerate || 24`). -/
def generateCMX3600EDL (tl : Timeline) : String :=
  let fr := if tl.framerate = 0 then 24 else tl.framerate
  let header := "TITLE: " ++ tl.name ++ "\nFCM: NON-DROP FRAME\n\n"
  (tl.tracks.foldl
    (fun (acc : String × ℕ) tr =>
      tr.clips.foldl (fun acc c => (acc.1 ++ clipEvent fr acc.2 c, acc.2 + 1)) acc)
    (header, 1)).1

/-- The EDL export operation (`exportTimelineEDL` / `Timeline.exportEDL`):
the no-clips guard tests only that the tracks array is non-empty, then the
format switch accepts exactly `CMX3600`. -/
def exportTimelineEDL (tl : Timeline) (format : String) : Except ExportError String :=
  if tl.tracks.length = 0 then .error .noClips
  else
    match format with
    | "CMX3600" => .ok (generateCMX3600EDL tl)
    | f => .error (.unsupportedFormat f)

/-- Clip data accepted by `addClip`.  The original defaults a falsy
`clipData.endTime` to `clipData.startTime + 5`; when `startTime` is also
absent that JS expression is the float NaN, which has no rational
counterpart, so the embedding requires `startTime` (note that the JS default
`clipData.startTime || 0` maps `0` to `0`, hence is the identity on every
supplied number). -/
structure ClipData where
  assetId : String
  startTime : ℚ
  endTime : Option ℚ
  inPoint : Option ℚ
  outPoint : Option ℚ
  transitions : Option ClipTransitions
deriving DecidableEq

/-- JS truthy defaulting `x || d` of an optional number: absent and zero fall
back to the default. -/
def truthyD (x : Option ℚ) (d : ℚ) : ℚ :=
  match x with
  | some v => if v = 0 then d else v
  | none => d

/-- Append a clip to the first track with the given id, `none` when no track
matches (`findIndex === -1`). -/
def addToFirst (trackId : String) (c : Clip) : List Track → Option (List Track)
  | [] => none
  | tr :: trs =>
    if tr.id = trackId then some ({ tr with clips := tr.clips ++ [c] } :: trs)
    else (addToFirst trackId c trs).map (fun ts => tr :: ts)

/-- The duration recomputation of `addClip`: the running maximum `maxEndTime`
over every clip of every track, starting from 0. -/
def maxEnd (ts : List Track) : ℚ :=
  ts.foldl
    (fun m tr => tr.clips.foldl (fun m c => if c.endTime > m then c.endTime else m) m)
    0

/-- The `addClip` method of the `Timeline` class: build the clip with JS
truthy defaults, push it onto the requested track, and recompute the timeline
duration from scratch across every track. -/
def addClip (tl : Timeline) (trackId : String) (cd : ClipData) :
    Except AddClipError (Timeline × Clip) :=
  let c : Clip :=
    { id := "clip"
      assetId := cd.assetId
      startTime := cd.startTime
      endTime := truthyD cd.endTime (cd.startTime + 5)
      inPoint := truthyD cd.inPoint 0
      outPoint := truthyD cd.outPoint 5
      transitions := cd.transitions.getD { tin := none, tout := none } }
  match addToFirst trackId c tl.tracks with
  | some ts => .ok ({ tl with tracks := ts, duration := maxEnd ts }, c)
  | none => .error .trackNotFound

/-- Concrete asset used by witnesses: a 10-second asset without timestamp. -/
def aW : Asset := ⟨"a1", 0, ⟨some 10, none, [], none⟩⟩

/-- Concrete asset used by witnesses: a 2-second asset without timestamp. -/
def aW2 : Asset := ⟨"a2", 1, ⟨some 2, none, [], none⟩⟩

/-- Witness options: chronological, no grouping, no transitions. -/
def optsW : AssemblyOptions := ⟨"chronological", none, false⟩

/-- The assembly result for `[aW]` under `optsW`. -/
def resW : AssembleResult := okOr (autoAssembleTimeline [aW] optsW) ⟨[], 0⟩

/-- Witness options with transitions requested. -/
def optsWT : AssemblyOptions := ⟨"chronological", none, true⟩

/-- The assembly result for `[aW, aW2]` under `optsWT`. -/
def resWT : AssembleResult := okOr (autoAssembleTimeline [aW, aW2] optsWT) ⟨[], 0⟩

/-- Asset with timestamp 10, used by the strategy counterexample. -/
def aB : Asset := ⟨"A", 0, ⟨some 2, some 10, [], none⟩⟩

/-- Asset with timestamp 5, used by the strategy counterexample. -/
def bB : Asset := ⟨"B", 0, ⟨some 2, some 5, [], none⟩⟩

/-- Options with a strategy that is neither `chronological` nor `semantic`. -/
def optsBogus : AssemblyOptions := ⟨"newest", none, false⟩

/-- The assembly result for `[aB, bB]` under the unknown strategy. -/
def resB : AssembleResult := okOr (autoAssembleTimeline [aB, bB] optsBogus) ⟨[], 0⟩

/-- Asset with the non-numeric scene key `b`. -/
def cxA : Asset := ⟨"A", 0, ⟨none, none, [("scene", "b")], none⟩⟩

/-- Asset with the numeric-string scene key `1`. -/
def cxB : Asset := ⟨"B", 0, ⟨none, none, [("scene", "1")], none⟩⟩

/-- Grouping witness asset with scene `x`. -/
def gA : Asset := ⟨"A", 0, ⟨none, none, [("scene", "x")], none⟩⟩

/-- Grouping witness asset with scene `y`. -/
def gB : Asset := ⟨"B", 0, ⟨none, none, [("scene", "y")], none⟩⟩

/-- Grouping witness asset with scene `x` again. -/
def gC : Asset := ⟨"C", 0, ⟨none, none, [("scene", "x")], none⟩⟩

/-- Asset whose `metadata.scene` is the defined empty string while
`metadata.analysis.scene` is `alpha`. -/
def aK : Asset := ⟨"K", 0, ⟨none, none, [("scene", "")], some [("scene", "alpha")]⟩⟩

/-- A timeline with one track and zero clips. -/
def tlX : Timeline := ⟨"tl1", "Demo", 24, "1920x1080", 0, [⟨"t1", "video", []⟩]⟩

/-- A timeline with one track holding one clip. -/
def tlY : Timeline :=
  ⟨"tl2", "Demo", 24, "1920x1080", 15,
    [⟨"t1", "video", [⟨"c1", "asset-1", 0, 15, 0, 15, ⟨none, none⟩⟩]⟩]⟩

/-- A timeline whose existing clip ends at 10, used by the `addClip` witness. -/
def tlW : Timeline :=
  ⟨"tl3", "T", 24, "1920x1080", 10,
    [⟨"t1", "video", [⟨"c0", "asset-0", 0, 10, 0, 10, ⟨none, none⟩⟩]⟩]⟩

/-- Clip data ending at 4, earlier than the existing clip of `tlW`. -/
def cdW : ClipData := ⟨"asset-2", 0, some 4, some 0, some 4, none⟩

/-- The result of adding `cdW` to track `t1` of `tlW`. -/
def resCW : Timeline × Clip :=
  okOr (addClip tlW "t1" cdW) (tlW, ⟨"", "", 0, 0, 0, 0, ⟨none, none⟩⟩)

/-- Claim C8: with an empty asset sequence the assembly fails with the
NoAssetsError, whatever the options are. -/
theorem assembleEmptyFails (opts : AssemblyOptions) :
    autoAssembleTimeline [] opts = Except.error AssembleError.noAssets := rfl

/-- Claim C9, counterexample: on an asset whose `metadata.scene` is the
defined empty string, the code resolves the group key to the analysis value
`alpha`, while the first-DEFINED-value chain of the claim resolves it to the
empty string. -/
theorem groupKeyLookupCex :
    resolveGroupKey "scene" aK = "alpha" ∧
    specDefinedChain "scene" aK = "" ∧
    ("alpha" : String) ≠ "" := by decide

/-- Claim C9, amended: the group key is the first TRUTHY value of the chain,
that is the first defined and non-empty value of `metadata[groupBy]`, then
`metadata.analysis[groupBy]`, with literal fallback `unknown`. -/
theorem groupKeyLookupAmended (g : String) (a : Asset) :
    resolveGroupKey g a = specTruthyChain g a := by
  unfold resolveGroupKey specTruthyChain specAnalysisTruthy strTruthy
  cases hm : lookupStr a.metadata.fields g with
  | none =>
    cases ha : a.metadata.analysis with
    | none => simp
    | some an =>
      cases hw : lookupStr an g with
      | none => simp [hw]
      | some w => by_cases hww : w = "" <;> simp [hw, hww]
  | some v =>
    by_cases hv : v = ""
    · subst hv
      cases ha : a.metadata.analysis with
      | none => simp
      | some an =>
        cases hw : lookupStr an g with
        | none => simp [hw]
        | some w => by_cases hww : w = "" <;> simp [hw, hww]
    · simp [hv]

/-- Claim C6, counterexample: on a timeline whose single track has zero clips
the export does not fail; it returns the header-only EDL, although every track
is empty. -/
theorem exportNoClipsCex :
    (∀ tr ∈ tlX.tracks, tr.clips = []) ∧
    exportTimelineEDL tlX "CMX3600" =
      Except.ok "TITLE: Demo\nFCM: NON-DROP FRAME\n\n" := by decide

/-- Claim C6, amended: the export fails with the NoClipsError exactly when
the tracks list itself is empty; in particular a timeline with at least one
clip never fails that way, but a clipless timeline with a track succeeds. -/
theorem exportNoClipsAmended (tl : Timeline) :
    (exportTimelineEDL tl "CMX3600" = Except.error ExportError.noClips ↔
      tl.tracks = []) ∧
    (allClips tl.tracks ≠ [] →
      exportTimelineEDL tl "CMX3600" ≠ Except.error ExportError.noClips) := by
  have h1 : exportTimelineEDL tl "CMX3600" = Except.error ExportError.noClips ↔
      tl.tracks = [] := by
    cases htr : tl.tracks with
    | nil => simp [exportTimelineEDL, htr]
    | cons t ts => simp [exportTimelineEDL, htr]
  refine ⟨h1, fun h hc => h ?_⟩
  have h2 : tl.tracks = [] := h1.mp hc
  simp [allClips, h2]

/-- Witness for the amended claim C6 at the one-clip timeline `tlY`. -/
theorem exportNoClipsAmendedWitness :
    exportTimelineEDL tlY "CMX3600" ≠ Except.error ExportError.noClips :=
  (exportNoClipsAmended tlY).2 (by decide)

/-- Claim C7, counterexample: the unknown strategy `newest` does not fail;
assembly succeeds, and the sort step keeps the input order even though the
chronological order of the same two assets is reversed. -/
theorem unknownStrategyCex :
    autoAssembleTimeline [aB, bB] optsBogus = Except.ok resB ∧
    sortStep "newest" [aB, bB] = [aB, bB] ∧
    sortStep "chronological" [aB, bB] = [bB, aB] :=
  ⟨rfl, by decide, by decide⟩

/-- Claim C7, amended: a strategy other than `chronological` and `semantic`
is NOT rejected; the default switch branch silently keeps the input order and
assembly succeeds on any non-empty asset sequence. -/
theorem unknownStrategyAmended (assets : List Asset) (opts : AssemblyOptions)
    (h1 : opts.strategy ≠ "chronological") (h2 : opts.strategy ≠ "semantic") :
    sortStep opts.strategy assets = assets ∧
    (assets ≠ [] → ∃ r, autoAssembleTimeline assets opts = Except.ok r) := by
  constructor
  · unfold sortStep
    split <;> simp_all
  · intro h
    cases assets with
    | nil => exact absurd rfl h
    | cons a l => exact ⟨_, rfl⟩

/-- Witness for the amended claim C7 at the concrete unknown strategy. -/
theorem unknownStrategyAmendedWitness :
    sortStep optsBogus.strategy [aB, bB] = [aB, bB] ∧
    ([aB, bB] ≠ [] → ∃ r, autoAssembleTimeline [aB, bB] optsBogus = Except.ok r) :=
  unknownStrategyAmended [aB, bB] optsBogus (by decide) (by decide)

/-- Helper: on a nonnegative declared duration the resolution of the source
(JS truthiness) agrees with the resolution worded in the claims. -/
theorem resolveDuration_eq_spec (a : Asset) (h : 0 ≤ a.metadata.duration.getD 0) :
    resolveDuration a = specResolvedDuration a := by
  cases hm : a.metadata.duration with
  | none => simp [resolveDuration, specResolvedDuration, hm]
  | some d =>
    rw [hm] at h
    simp only [Option.getD_some] at h
    by_cases hd : d = 0
    · simp [resolveDuration, specResolvedDuration, hm, hd]
    · have hpos : 0 < d := lt_of_le_of_ne h (Ne.symm hd)
      simp [resolveDuration, specResolvedDuration, hm, hd, hpos]

/-- Helper: the claim-worded resolved duration is always positive. -/
theorem specResolvedDuration_pos (a : Asset) : 0 < specResolvedDuration a := by
  rcases hm : a.metadata.duration with _ | d
  · simp only [specResolvedDuration, hm]
    norm_num
  · simp only [specResolvedDuration, hm]
    split
    · assumption
    · norm_num

/-- Helper: on a nonnegative declared duration the resolved duration of the
source is positive. -/
theorem resolveDuration_pos (a : Asset) (h : 0 ≤ a.metadata.duration.getD 0) :
    0 < resolveDuration a := by
  rw [resolveDuration_eq_spec a h]
  exact specResolvedDuration_pos a

/-- Helper: the final cursor of the placement loop is the start cursor plus
the sum of the resolved durations. -/
theorem placeLoop_snd (addT : Bool) (l : List Asset) : ∀ (t : ℚ) (nf : Bool),
    (placeLoop addT l t nf).2 = t + (l.map resolveDuration).sum := by
  induction l with
  | nil => intro t nf; simp [placeLoop]
  | cons a l ih =>
    intro t nf
    simp [placeLoop, ih, add_assoc]

/-- Helper: the placement loop emits one clip per asset. -/
theorem placeLoop_length (addT : Bool) (l : List Asset) : ∀ (t : ℚ) (nf : Bool),
    (placeLoop addT l t nf).1.length = l.length := by
  induction l with
  | nil => intro t nf; simp [placeLoop]
  | cons a l ih => intro t nf; simp [placeLoop, ih]

/-- Helper: `lastEndTime` skips a cons when the tail is non-empty. -/
theorem lastEndTime_cons (c : Clip) (cs : List Clip) (h : cs ≠ []) :
    lastEndTime (c :: cs) = lastEndTime cs := by
  cases cs with
  | nil => exact absurd rfl h
  | cons c2 cs2 => simp [lastEndTime, List.getLast?_cons_cons]

/-- Helper: on a non-empty asset list the last placed clip ends exactly at the
final cursor. -/
theorem placeLoop_lastEnd (addT : Bool) (l : List Asset) : ∀ (t : ℚ) (nf : Bool),
    l ≠ [] → lastEndTime (placeLoop addT l t nf).1 = (placeLoop addT l t nf).2 := by
  induction l with
  | nil => intro t nf h; exact absurd rfl h
  | cons a l ih =>
    intro t nf _
    cases l with
    | nil => simp [placeLoop, lastEndTime, mkClip]
    | cons b l2 =>
      have hne : (placeLoop addT (b :: l2) (t + resolveDuration a) true).1 ≠ [] := by
        simp [placeLoop]
      calc lastEndTime (placeLoop addT (a :: b :: l2) t nf).1
          = lastEndTime (mkClip addT nf t a ::
              (placeLoop addT (b :: l2) (t + resolveDuration a) true).1) := rfl
        _ = lastEndTime (placeLoop addT (b :: l2) (t + resolveDuration a) true).1 :=
            lastEndTime_cons _ _ hne
        _ = (placeLoop addT (b :: l2) (t + resolveDuration a) true).2 :=
            ih (t + resolveDuration a) true (by simp)
        _ = (placeLoop addT (a :: b :: l2) t nf).2 := rfl

/-- Helper: every placed clip starts at or after the start cursor and ends
strictly after it starts, given positive resolved durations. -/
theorem placeLoop_bounds (addT : Bool) (l : List Asset) : ∀ (t : ℚ) (nf : Bool),
    (∀ a ∈ l, 0 < resolveDuration a) →
    ∀ c ∈ (placeLoop addT l t nf).1, t ≤ c.startTime ∧ c.startTime < c.endTime := by
  induction l with
  | nil => intro t nf _ c hc; simp [placeLoop] at hc
  | cons a l ih =>
    intro t nf hpos c hc
    have hd : 0 < resolveDuration a := hpos a (List.mem_cons_self _ _)
    simp only [placeLoop, List.mem_cons] at hc
    rcases hc with rfl | hc
    · refine ⟨le_refl _, ?_⟩
      show t < t + resolveDuration a
      linarith
    · have h2 := ih (t + resolveDuration a) true
        (fun x hx => hpos x (List.mem_cons_of_mem _ hx)) c hc
      exact ⟨by linarith [h2.1], h2.2⟩

/-- Helper: the placed clips are pairwise contiguous in order: every earlier
clip ends at or before a later clip starts, and starts strictly before it. -/
theorem placeLoop_pairwise (addT : Bool) (l : List Asset) : ∀ (t : ℚ) (nf : Bool),
    (∀ a ∈ l, 0 < resolveDuration a) →
    List.Pairwise (fun c1 c2 => c1.endTime ≤ c2.startTime ∧ c1.startTime < c2.startTime)
      (placeLoop addT l t nf).1 := by
  induction l with
  | nil => intro t nf _; simp [placeLoop]
  | cons a l ih =>
    intro t nf hpos
    have hd : 0 < resolveDuration a := hpos a (List.mem_cons_self _ _)
    have htail := ih (t + resolveDuration a) true
      (fun x hx => hpos x (List.mem_cons_of_mem _ hx))
    have hb := placeLoop_bounds addT l (t + resolveDuration a) true
      (fun x hx => hpos x (List.mem_cons_of_mem _ hx))
    simp only [placeLoop]
    refine List.Pairwise.cons ?_ htail
    intro c hc
    have h2 := hb c hc
    constructor
    · show t + resolveDuration a ≤ c.startTime
      exact h2.1
    · show t < c.startTime
      linarith [h2.1]

/-- Helper: no placed clip carries an outgoing transition. -/
theorem placeLoop_tout (addT : Bool) (l : List Asset) : ∀ (t : ℚ) (nf : Bool),
    ∀ c ∈ (placeLoop addT l t nf).1, c.transitions.tout = none := by
  induction l with
  | nil => intro t nf c hc; simp [placeLoop] at hc
  | cons a l ih =>
    intro t nf c hc
    simp only [placeLoop, List.mem_cons] at hc
    rcases hc with rfl | hc
    · simp only [mkClip]
      split <;> rfl
    · exact ih _ _ c hc

/-- Helper: with transitions requested and the first clip already placed,
every further clip carries the clamped dissolve on `transitions.in`. -/
theorem placeLoop_tin_spec (l : List Asset) : ∀ (t : ℚ),
    (∀ a ∈ l, 0 ≤ a.metadata.duration.getD 0) →
    List.Forall₂ (fun c a => c.transitions.tin =
        some { type := "dissolve", duration := min 1 (specResolvedDuration a / 4) })
      (placeLoop true l t true).1 l := by
  induction l with
  | nil => intro t _; simp [placeLoop]
  | cons a l ih =>
    intro t hd
    simp only [placeLoop]
    refine List.Forall₂.cons ?_ (ih _ (fun x hx => hd x (List.mem_cons_of_mem _ hx)))
    have he := resolveDuration_eq_spec a (hd a (List.mem_cons_self _ _))
    simp [mkClip, he]

/-- Helper: membership through stable insertion. -/
theorem mem_insertSorted (b a : Asset) : ∀ (l : List Asset),
    b ∈ insertSorted a l ↔ b = a ∨ b ∈ l := by
  intro l
  induction l with
  | nil => simp [insertSorted]
  | cons c cs ih =>
    unfold insertSorted
    split
    · rw [List.mem_cons, ih, List.mem_cons]
      tauto
    · simp

/-- Helper: membership through the chronological sort fold. -/
theorem mem_sortChronological_aux (b : Asset) : ∀ (l acc : List Asset),
    b ∈ l.foldl (fun acc a => insertSorted a acc) acc ↔ b ∈ acc ∨ b ∈ l := by
  intro l
  induction l with
  | nil => intro acc; simp
  | cons a l ih =>
    intro acc
    simp only [List.foldl_cons]
    rw [ih (insertSorted a acc), mem_insertSorted, List.mem_cons]
    tauto

/-- Helper: the sort step permutes and in particular preserves membership. -/
theorem mem_sortStep (b : Asset) (s : String) (l : List Asset) :
    b ∈ sortStep s l ↔ b ∈ l := by
  unfold sortStep
  split
  · unfold sortChronological
    rw [mem_sortChronological_aux]
    simp
  · exact Iff.rfl
  · exact Iff.rfl

/-- Helper: membership through the first-occurrence dedup fold. -/
theorem mem_dedupFirst_aux (x : String) : ∀ (l acc : List String),
    x ∈ l.foldl (fun acc k => if k ∈ acc then acc else acc ++ [k]) acc ↔
      x ∈ acc ∨ x ∈ l := by
  intro l
  induction l with
  | nil => intro acc; simp
  | cons k l ih =>
    intro acc
    simp only [List.foldl_cons]
    rw [ih]
    by_cases hk : k ∈ acc
    · simp only [hk, if_true, List.mem_cons]
      constructor
      · rintro (h | h)
        · exact Or.inl h
        · exact Or.inr (Or.inr h)
      · rintro (h | rfl | h)
        · exact Or.inl h
        · exact Or.inl hk
        · exact Or.inr h
    · simp only [hk, if_false, List.mem_append, List.mem_singleton, List.mem_cons]
      tauto

/-- Helper: dedup preserves membership. -/
theorem mem_dedupFirst (x : String) (l : List String) :
    x ∈ dedupFirst l ↔ x ∈ l := by
  unfold dedupFirst
  rw [mem_dedupFirst_aux]
  simp

/-- Helper: the dedup fold keeps the accumulator duplicate-free. -/
theorem dedupFirst_nodup_aux : ∀ (l acc : List String), acc.Nodup →
    (l.foldl (fun acc k => if k ∈ acc then acc else acc ++ [k]) acc).Nodup := by
  intro l
  induction l with
  | nil => intro acc h; simpa
  | cons k l ih =>
    intro acc h
    simp only [List.foldl_cons]
    apply ih
    by_cases hk : k ∈ acc
    · simpa [hk]
    · simp only [hk, if_false]
      rw [List.nodup_append]
      refine ⟨h, List.nodup_singleton k, ?_⟩
      intro x hx hxk
      simp only [List.mem_singleton] at hxk
      subst hxk
      exact hk hx

/-- Helper: the dedup of a key list has no duplicates. -/
theorem dedupFirst_nodup (l : List String) : (dedupFirst l).Nodup :=
  dedupFirst_nodup_aux l [] List.nodup_nil

/-- Helper: dedup of a list extended by one key. -/
theorem dedupFirst_append_single (l : List String) (x : String) :
    dedupFirst (l ++ [x]) =
      if x ∈ l then dedupFirst l else dedupFirst l ++ [x] := by
  unfold dedupFirst
  rw [List.foldl_append]
  simp only [List.foldl_cons, List.foldl_nil]
  by_cases hx : x ∈ l
  · have hmem : x ∈ dedupFirst l := (mem_dedupFirst x l).2 hx
    simp only [dedupFirst] at hmem
    simp [hmem, hx]
  · have hmem : x ∉ dedupFirst l := fun h => hx ((mem_dedupFirst x l).1 h)
    simp only [dedupFirst] at hmem
    simp [hmem, hx]

/-- Helper: inserting a fresh key appends the new entry at the end. -/
theorem insertGrouped_notMem (k : String) (a : Asset) :
    ∀ (gs : List (String × List Asset)), (∀ e ∈ gs, e.1 ≠ k) →
    insertGrouped gs k a = gs ++ [(k, [a])] := by
  intro gs
  induction gs with
  | nil => intro _; rfl
  | cons e rest ih =>
    intro h
    unfold insertGrouped
    rw [if_neg (h e (List.mem_cons_self _ _))]
    rw [ih (fun x hx => h x (List.mem_cons_of_mem _ hx))]
    simp

/-- Helper: inserting a present key appends the asset to exactly its entry. -/
theorem insertGrouped_memMap (f : String → List Asset) (k : String) (a : Asset) :
    ∀ (ks : List String), ks.Nodup → k ∈ ks →
    insertGrouped (ks.map (fun x => (x, f x))) k a =
      ks.map (fun x => (x, f x ++ if x = k then [a] else [])) := by
  intro ks
  induction ks with
  | nil => intro _ h; simp at h
  | cons x ks ih =>
    intro hnd hk
    simp only [List.map_cons]
    unfold insertGrouped
    by_cases hx : x = k
    · rw [if_pos hx]
      subst hx
      have hnotin : x ∉ ks := (List.nodup_cons.mp hnd).1
      congr 1
      · simp
      · apply List.map_congr_left
        intro y hy
        have hyx : ¬(y = x) := fun h => hnotin (h ▸ hy)
        simp [hyx]
    · rw [if_neg hx]
      have hk2 : k ∈ ks := by
        rcases List.mem_cons.mp hk with h | h
        · exact absurd h.symm hx
        · exact h
      rw [ih (List.nodup_cons.mp hnd).2 hk2]
      simp [hx]

/-- Helper: one grouping step preserves the canonical form. -/
theorem insertGrouped_canon (g : String) (a : Asset) (p : List Asset) :
    insertGrouped (canonGroups g p) (resolveGroupKey g a) a =
      canonGroups g (p ++ [a]) := by
  by_cases hk : resolveGroupKey g a ∈ p.map (resolveGroupKey g)
  · unfold canonGroups
    simp only [List.map_append, List.map_cons, List.map_nil]
    rw [dedupFirst_append_single, if_pos hk]
    rw [insertGrouped_memMap (fun k => p.filter (fun x => resolveGroupKey g x == k))
      (resolveGroupKey g a) a (dedupFirst (p.map (resolveGroupKey g)))
      (dedupFirst_nodup _) ((mem_dedupFirst _ _).2 hk)]
    apply List.map_congr_left
    intro k hkmem
    rw [List.filter_append]
    by_cases hka : k = resolveGroupKey g a
    · subst hka
      simp
    · have hne : ¬(resolveGroupKey g a == k) = true := by
        simp only [beq_iff_eq]
        exact fun h => hka h.symm
      simp [hka, hne]
  · have hne : ∀ e ∈ canonGroups g p, e.1 ≠ resolveGroupKey g a := by
      intro e he
      unfold canonGroups at he
      rcases List.mem_map.mp he with ⟨k, hkmem, rfl⟩
      intro hcontra
      exact hk (hcontra ▸ (mem_dedupFirst _ _).1 hkmem)
    rw [insertGrouped_notMem _ _ _ hne]
    unfold canonGroups
    simp only [List.map_append, List.map_cons, List.map_nil]
    rw [dedupFirst_append_single, if_neg hk]
    rw [List.map_append]
    congr 1
    · apply List.map_congr_left
      intro k hkmem
      rw [List.filter_append]
      have hk2 : ¬(resolveGroupKey g a == k) = true := by
        simp only [beq_iff_eq]
        intro h
        exact hk (h ▸ (mem_dedupFirst _ _).1 hkmem)
      simp [hk2]
    · have hfil : p.filter (fun x => resolveGroupKey g x == resolveGroupKey g a) = [] := by
        rw [List.filter_eq_nil_iff]
        intro x hx
        simp only [beq_iff_eq]
        intro h
        exact hk (h ▸ List.mem_map_of_mem _ hx)
      simp [List.filter_append, hfil]

/-- Helper: the grouping fold starting from a canonical prefix stays
canonical. -/
theorem buildGroups_canon_aux (g : String) : ∀ (l p : List Asset),
    l.foldl (fun gs a => insertGrouped gs (resolveGroupKey g a) a) (canonGroups g p) =
      canonGroups g (p ++ l) := by
  intro l
  induction l with
  | nil => intro p; simp
  | cons a l ih =>
    intro p
    simp only [List.foldl_cons]
    rw [insertGrouped_canon, ih (p ++ [a]), List.append_assoc, List.singleton_append]

/-- Helper: the groups object equals its canonical form. -/
theorem buildGroups_canon (g : String) (l : List Asset) :
    buildGroups g l = canonGroups g l := by
  have h := buildGroups_canon_aux g l []
  simpa [buildGroups, canonGroups, dedupFirst] using h

/-- Helper: membership through the index-sort insertion. -/
theorem mem_insertByIdx (x e : String × List Asset) :
    ∀ (l : List (String × List Asset)), x ∈ insertByIdx e l ↔ x = e ∨ x ∈ l := by
  intro l
  induction l with
  | nil => simp [insertByIdx]
  | cons f fs ih =>
    unfold insertByIdx
    split
    · simp
    · rw [List.mem_cons, ih, List.mem_cons]
      tauto

/-- Helper: the index sort preserves membership. -/
theorem mem_sortByIdx (x : String × List Asset) :
    ∀ (l : List (String × List Asset)), x ∈ sortByIdx l ↔ x ∈ l := by
  intro l
  unfold sortByIdx
  induction l with
  | nil => simp
  | cons e es ih =>
    simp only [List.foldr_cons]
    rw [mem_insertByIdx, ih, List.mem_cons]

/-- Helper: the values enumeration ranges exactly over the entries. -/
theorem mem_jsObjectValues (v : List Asset) (gs : List (String × List Asset)) :
    v ∈ jsObjectValues gs ↔ ∃ e ∈ gs, e.2 = v := by
  unfold jsObjectValues
  rw [List.mem_map]
  constructor
  · rintro ⟨e, he, rfl⟩
    rw [List.mem_append] at he
    rcases he with he | he
    · rw [mem_sortByIdx] at he
      exact ⟨e, (List.mem_filter.mp he).1, rfl⟩
    · exact ⟨e, (List.mem_filter.mp he).1, rfl⟩
  · rintro ⟨e, he, rfl⟩
    refine ⟨e, ?_, rfl⟩
    rw [List.mem_append]
    rcases harr : arrayIndexOf e.1 with _ | n
    · right
      exact List.mem_filter.mpr ⟨he, by simp [harr]⟩
    · left
      rw [mem_sortByIdx]
      exact List.mem_filter.mpr ⟨he, by simp [harr]⟩

/-- Helper: grouping preserves membership. -/
theorem mem_groupAssets (b : Asset) (g : String) (l : List Asset) :
    b ∈ groupAssets g l ↔ b ∈ l := by
  unfold groupAssets
  rw [List.mem_flatten]
  constructor
  · rintro ⟨v, hv, hbv⟩
    rw [mem_jsObjectValues] at hv
    rcases hv with ⟨e, he, rfl⟩
    rw [buildGroups_canon] at he
    unfold canonGroups at he
    rcases List.mem_map.mp he with ⟨k, _, rfl⟩
    exact List.mem_of_mem_filter hbv
  · intro hb
    refine ⟨l.filter (fun x => resolveGroupKey g x == resolveGroupKey g b), ?_, ?_⟩
    · rw [mem_jsObjectValues]
      refine ⟨(resolveGroupKey g b,
        l.filter (fun x => resolveGroupKey g x == resolveGroupKey g b)), ?_, rfl⟩
      rw [buildGroups_canon]
      unfold canonGroups
      apply List.mem_map.mpr
      exact ⟨resolveGroupKey g b,
        (mem_dedupFirst _ _).2 (List.mem_map_of_mem _ hb), rfl⟩
    · exact List.mem_filter.mpr ⟨hb, by simp⟩

/-- Helper: the grouping step preserves membership. -/
theorem groupStep_mem (b : Asset) (gb : Option String) (l : List Asset) :
    b ∈ groupStep gb l ↔ b ∈ l := by
  cases gb with
  | none => simp [groupStep]
  | some g =>
    by_cases hg : g = ""
    · simp [groupStep, hg]
    · simp [groupStep, hg, mem_groupAssets]

/-- Helper: the whole ordering pipeline preserves membership. -/
theorem mem_orderedAssets (b : Asset) (assets : List Asset) (opts : AssemblyOptions) :
    b ∈ orderedAssets assets opts ↔ b ∈ assets := by
  unfold orderedAssets
  rw [groupStep_mem, mem_sortStep]

/-- Helper: the ordering pipeline maps non-empty input to non-empty output. -/
theorem orderedAssets_ne_nil (assets : List Asset) (opts : AssemblyOptions)
    (h : assets ≠ []) : orderedAssets assets opts ≠ [] := by
  cases assets with
  | nil => exact absurd rfl h
  | cons a l =>
    intro hcontra
    have hmem : a ∈ orderedAssets (a :: l) opts :=
      (mem_orderedAssets a (a :: l) opts).2 (List.mem_cons_self _ _)
    rw [hcontra] at hmem
    simp at hmem

/-- Helper: the clips of the single assembled track. -/
theorem allClips_assembleTrack (cs : List Clip) : allClips [assembleTrack cs] = cs := by
  simp [allClips, assembleTrack]

/-- Claim C1: for an assembled timeline (addTransitions false) the duration
equals the sum of the claim-resolved clip durations of the placed assets, and
equals the last placed clip's endTime; the placement of an empty sequence
yields duration 0.  The nonnegativity hypothesis is the data model's
`duration >= 0`; on it the source's truthy resolution agrees with the claim's
positive-or-default resolution. -/
theorem durationInvariantAutoAssemble (assets : List Asset) (opts : AssemblyOptions)
    (res : AssembleResult)
    (hT : opts.addTransitions = false)
    (hok : autoAssembleTimeline assets opts = Except.ok res)
    (hd : ∀ a ∈ assets, 0 ≤ a.metadata.duration.getD 0) :
    res.duration = ((orderedAssets assets opts).map specResolvedDuration).sum ∧
    res.duration = lastEndTime (allClips res.tracks) ∧
    lastEndTime (placeLoop opts.addTransitions ([] : List Asset) 0 false).1 = 0 := by
  cases assets with
  | nil => simp [autoAssembleTimeline] at hok
  | cons a0 l0 =>
    simp only [autoAssembleTimeline, Except.ok.injEq] at hok
    subst hok
    refine ⟨?_, ?_, rfl⟩
    · show (placeLoop opts.addTransitions (orderedAssets (a0 :: l0) opts) 0 false).2 = _
      rw [placeLoop_snd, zero_add]
      congr 1
      apply List.map_congr_left
      intro x hx
      exact resolveDuration_eq_spec x (hd x ((mem_orderedAssets x (a0 :: l0) opts).1 hx))
    · show (placeLoop opts.addTransitions (orderedAssets (a0 :: l0) opts) 0 false).2 =
        lastEndTime (allClips [assembleTrack
          (placeLoop opts.addTransitions (orderedAssets (a0 :: l0) opts) 0 false).1])
      rw [allClips_assembleTrack]
      exact (placeLoop_lastEnd _ _ 0 false (orderedAssets_ne_nil (a0 :: l0) opts (by simp))).symm

/-- Witness for claim C1 at a concrete one-asset assembly. -/
theorem durationInvariantAutoAssembleWitness :
    resW.duration = ((orderedAssets [aW] optsW).map specResolvedDuration).sum ∧
    resW.duration = lastEndTime (allClips resW.tracks) ∧
    lastEndTime (placeLoop optsW.addTransitions ([] : List Asset) 0 false).1 = 0 :=
  durationInvariantAutoAssemble [aW] optsW resW rfl rfl (by decide)

/-- Claim C2: in every track of an assembled timeline the clips are pairwise
non-overlapping and listed in ascending startTime order. -/
theorem nonOverlapAutoAssemble (assets : List Asset) (opts : AssemblyOptions)
    (res : AssembleResult)
    (hok : autoAssembleTimeline assets opts = Except.ok res)
    (hd : ∀ a ∈ assets, 0 ≤ a.metadata.duration.getD 0) :
    ∀ tr ∈ res.tracks, List.Pairwise
      (fun c1 c2 => (c1.endTime ≤ c2.startTime ∨ c2.endTime ≤ c1.startTime) ∧
        c1.startTime ≤ c2.startTime) tr.clips := by
  cases assets with
  | nil => simp [autoAssembleTimeline] at hok
  | cons a0 l0 =>
    simp only [autoAssembleTimeline, Except.ok.injEq] at hok
    subst hok
    intro tr htr
    simp only [List.mem_singleton] at htr
    subst htr
    have hp := placeLoop_pairwise opts.addTransitions (orderedAssets (a0 :: l0) opts) 0 false
      (fun x hx => resolveDuration_pos x (hd x ((mem_orderedAssets x (a0 :: l0) opts).1 hx)))
    exact hp.imp (fun h => ⟨Or.inl h.1, le_of_lt h.2⟩)

/-- Witness for claim C2 at a concrete one-asset assembly, instantiated at
its single track. -/
theorem nonOverlapAutoAssembleWitness :
    List.Pairwise
      (fun c1 c2 => (c1.endTime ≤ c2.startTime ∨ c2.endTime ≤ c1.startTime) ∧
        c1.startTime ≤ c2.startTime)
      (assembleTrack (placeLoop optsW.addTransitions
        (orderedAssets [aW] optsW) 0 false).1).clips :=
  nonOverlapAutoAssemble [aW] optsW resW rfl (by decide)
    (assembleTrack (placeLoop optsW.addTransitions
      (orderedAssets [aW] optsW) 0 false).1)
    (List.mem_cons_self _ _)

/-- Claim C3: with transitions requested, the first placed clip carries no
incoming transition, every later clip carries the dissolve with the clamped
duration min(1, clipDuration/4) for its asset's resolved duration, and no
clip carries an outgoing transition.  This is the clamped policy of the
`autoAssembleTimeline` Cloud Function, the policy the specification declares
canonical. -/
theorem transitionsAutoAssemble (assets : List Asset) (opts : AssemblyOptions)
    (res : AssembleResult)
    (hT : opts.addTransitions = true)
    (hok : autoAssembleTimeline assets opts = Except.ok res)
    (hd : ∀ a ∈ assets, 0 ≤ a.metadata.duration.getD 0) :
    ∃ c0 cs, allClips res.tracks = c0 :: cs ∧
      c0.transitions.tin = none ∧
      (∀ c ∈ allClips res.tracks, c.transitions.tout = none) ∧
      List.Forall₂ (fun c a => c.transitions.tin =
          some { type := "dissolve", duration := min 1 (specResolvedDuration a / 4) })
        cs (orderedAssets assets opts).tail := by
  cases assets with
  | nil => simp [autoAssembleTimeline] at hok
  | cons a0 l0 =>
    simp only [autoAssembleTimeline, Except.ok.injEq] at hok
    subst hok
    obtain ⟨o, os, ho⟩ : ∃ o os, orderedAssets (a0 :: l0) opts = o :: os := by
      rcases hord : orderedAssets (a0 :: l0) opts with _ | ⟨o, os⟩
      · exact absurd hord (orderedAssets_ne_nil (a0 :: l0) opts (by simp))
      · exact ⟨o, os, rfl⟩
    simp only [hT, ho, List.tail_cons]
    refine ⟨mkClip true false 0 o, (placeLoop true os (0 + resolveDuration o) true).1,
      ?_, ?_, ?_, ?_⟩
    · show allClips [assembleTrack (placeLoop true (o :: os) 0 false).1] = _
      rw [allClips_assembleTrack]
      rfl
    · simp [mkClip]
    · intro c hc
      refine placeLoop_tout true (o :: os) 0 false c ?_
      simpa [allClips, assembleTrack] using hc
    · refine placeLoop_tin_spec os (0 + resolveDuration o) ?_
      intro x hx
      have hxm : x ∈ orderedAssets (a0 :: l0) opts := by
        rw [ho]
        exact List.mem_cons_of_mem o hx
      exact hd x ((mem_orderedAssets x (a0 :: l0) opts).1 hxm)

/-- Witness for claim C3 at a concrete two-asset assembly with transitions. -/
theorem transitionsAutoAssembleWitness :
    ∃ c0 cs, allClips resWT.tracks = c0 :: cs ∧
      c0.transitions.tin = none ∧
      (∀ c ∈ allClips resWT.tracks, c.transitions.tout = none) ∧
      List.Forall₂ (fun c a => c.transitions.tin =
          some { type := "dissolve", duration := min 1 (specResolvedDuration a / 4) })
        cs (orderedAssets [aW, aW2] optsWT).tail :=
  transitionsAutoAssemble [aW, aW2] optsWT resWT rfl rfl (by decide)

/-- Claim C4, counterexample: with the scene keys `b` and `1` in that input
order, the JS object semantics put the array-index key `1` first, so the
grouped output is NOT in first-appearance order. -/
theorem groupingFirstAppearanceCex :
    groupAssets "scene" [cxA, cxB] = [cxB, cxA] ∧
    specGroupAssets "scene" [cxA, cxB] = [cxA, cxB] ∧
    cxA ≠ cxB := by decide

/-- Claim C4, amended: provided no resolved group key is an array-index
string, grouping outputs the concatenation of the groups in first-appearance
order of the keys, each group preserving the input order of its assets; and
grouping with an absent groupBy key is the identity. -/
theorem groupingFirstAppearanceAmended (g : String) (l : List Asset)
    (h : ∀ a ∈ l, (arrayIndexOf (resolveGroupKey g a)).isNone = true) :
    groupAssets g l = specGroupAssets g l ∧ groupStep none l = l := by
  refine ⟨?_, rfl⟩
  unfold groupAssets specGroupAssets
  rw [buildGroups_canon]
  have hkeys : ∀ e ∈ canonGroups g l, (arrayIndexOf e.1).isNone = true := by
    intro e he
    unfold canonGroups at he
    rcases List.mem_map.mp he with ⟨k, hkmem, rfl⟩
    rcases List.mem_map.mp ((mem_dedupFirst k _).1 hkmem) with ⟨a, ha, rfl⟩
    exact h a ha
  have hvals : jsObjectValues (canonGroups g l) =
      (canonGroups g l).map (fun e => e.2) := by
    unfold jsObjectValues
    have hfil1 : (canonGroups g l).filter (fun e => (arrayIndexOf e.1).isSome) = [] := by
      rw [List.filter_eq_nil_iff]
      intro e he
      have hn := hkeys e he
      simp only [Option.isNone_iff_eq_none] at hn
      simp [hn]
    have hfil2 : (canonGroups g l).filter (fun e => (arrayIndexOf e.1).isNone) =
        canonGroups g l := List.filter_eq_self.mpr (hkeys)
    rw [hfil1, hfil2]
    simp [sortByIdx]
  rw [hvals]
  unfold canonGroups
  rw [List.map_map]
  rfl

/-- Witness for the amended claim C4 at the spec example: scenes x, y, x. -/
theorem groupingFirstAppearanceAmendedWitness :
    groupAssets "scene" [gA, gB, gC] = specGroupAssets "scene" [gA, gB, gC] ∧
    groupStep none [gA, gB, gC] = [gA, gB, gC] :=
  groupingFirstAppearanceAmended "scene" [gA, gB, gC] (by decide)

/-- Helper: the nested duration recomputation loop is a maximum fold over all
clips in track-then-clip order. -/
theorem maxEnd_eq_foldl (ts : List Track) :
    maxEnd ts = (allClips ts).foldl (fun m c => max m c.endTime) 0 := by
  have hstep : (fun (m : ℚ) (c : Clip) => if c.endTime > m then c.endTime else m) =
      (fun (m : ℚ) (c : Clip) => max m c.endTime) := by
    funext m c
    rcases le_or_lt c.endTime m with h | h
    · rw [if_neg (not_lt.mpr h), max_eq_left h]
    · rw [if_pos h, max_eq_right (le_of_lt h)]
  unfold maxEnd allClips
  rw [hstep, List.foldl_flatten, List.foldl_map]

/-- Helper: the initial value never exceeds the maximum fold. -/
theorem foldl_max_init_le (l : List Clip) : ∀ (m : ℚ),
    m ≤ l.foldl (fun m c => max m c.endTime) m := by
  induction l with
  | nil => intro m; exact le_refl m
  | cons a l ih =>
    intro m
    simp only [List.foldl_cons]
    exact le_trans (le_max_left _ _) (ih (max m a.endTime))

/-- Helper: every clip endTime is bounded by the maximum fold. -/
theorem foldl_max_le_mem (l : List Clip) : ∀ (m : ℚ), ∀ c ∈ l,
    c.endTime ≤ l.foldl (fun m c => max m c.endTime) m := by
  induction l with
  | nil => intro m c hc; simp at hc
  | cons a l ih =>
    intro m c hc
    simp only [List.foldl_cons]
    rcases List.mem_cons.mp hc with rfl | hc
    · exact le_trans (le_max_right m c.endTime) (foldl_max_init_le l (max m c.endTime))
    · exact ih (max m a.endTime) c hc

/-- Helper: the maximum fold is the initial value or an attained endTime. -/
theorem foldl_max_attained (l : List Clip) : ∀ (m : ℚ),
    l.foldl (fun m c => max m c.endTime) m = m ∨
    ∃ c ∈ l, l.foldl (fun m c => max m c.endTime) m = c.endTime := by
  induction l with
  | nil => intro m; exact Or.inl rfl
  | cons a l ih =>
    intro m
    simp only [List.foldl_cons]
    rcases ih (max m a.endTime) with h | ⟨c, hc, h⟩
    · rcases le_or_lt a.endTime m with hh | hh
      · left
        rw [h, max_eq_left hh]
      · right
        exact ⟨a, List.mem_cons_self _ _, by rw [h, max_eq_right (le_of_lt hh)]⟩
    · right
      exact ⟨c, List.mem_cons_of_mem _ hc, h⟩

/-- Helper: a successfully added clip occurs among the clips of the result. -/
theorem addToFirst_clip_mem (trackId : String) (c : Clip) :
    ∀ (ts ts' : List Track), addToFirst trackId c ts = some ts' →
      c ∈ allClips ts' := by
  intro ts
  induction ts with
  | nil => intro ts' h; simp [addToFirst] at h
  | cons tr trs ih =>
    intro ts' h
    unfold addToFirst at h
    split at h
    · rw [Option.some.injEq] at h
      subst h
      simp [allClips]
    · rcases haux : addToFirst trackId c trs with _ | ts2
      · rw [haux] at h
        simp at h
      · rw [haux] at h
        simp only [Option.map_some', Option.some.injEq] at h
        subst h
        have hm := ih ts2 haux
        simp only [allClips, List.map_cons, List.flatten_cons, List.mem_append]
        exact Or.inr (by simpa [allClips] using hm)

/-- Claim C10: after a successful `addClip` the timeline duration is the
maximum endTime over all clips of all tracks, recomputed from scratch: it
bounds every clip and is attained by one (under the data model's nonnegative
times, since the running maximum starts at 0). -/
theorem addClipDurationMax (tl : Timeline) (trackId : String) (cd : ClipData)
    (res : Timeline × Clip)
    (hok : addClip tl trackId cd = Except.ok res)
    (hnn : ∀ c ∈ allClips res.1.tracks, 0 ≤ c.endTime) :
    (∀ c ∈ allClips res.1.tracks, c.endTime ≤ res.1.duration) ∧
    ∃ c ∈ allClips res.1.tracks, res.1.duration = c.endTime := by
  simp only [addClip] at hok
  split at hok
  case h_2 => simp at hok
  case h_1 cBuilt ts heq =>
    simp only [Except.ok.injEq] at hok
    subst hok
    simp only at hnn ⊢
    rw [maxEnd_eq_foldl]
    refine ⟨fun c hc => foldl_max_le_mem (allClips ts) 0 c hc, ?_⟩
    rcases foldl_max_attained (allClips ts) 0 with h0 | ⟨c, hc, hcE⟩
    · have hmem := addToFirst_clip_mem trackId _ tl.tracks ts heq
      refine ⟨_, hmem, ?_⟩
      have hub := foldl_max_le_mem (allClips ts) 0 _ hmem
      have hlb := hnn _ hmem
      rw [h0] at hub ⊢
      linarith
    · exact ⟨c, hc, hcE⟩

/-- Witness for claim C10: adding a clip ending at 4 to a timeline whose
existing clip ends at 10. -/
theorem addClipDurationMaxWitness :
    (∀ c ∈ allClips resCW.1.tracks, c.endTime ≤ resCW.1.duration) ∧
    ∃ c ∈ allClips resCW.1.tracks, resCW.1.duration = c.endTime :=
  addClipDurationMax tlW "t1" cdW resCW rfl (by decide)

/-- Helper: flooring after division by a positive integer is integer division
of the floor (integer division on `ℤ` is Euclidean, which agrees with floor
division for a positive divisor). -/
theorem floor_div_pnat (q : ℚ) (k : ℕ) (hk : 0 < k) :
    ⌊q / (k : ℚ)⌋ = ⌊q⌋ / (k : ℤ) := by
  have hk0 : (0 : ℤ) < (k : ℤ) := by exact_mod_cast hk
  have hkQ : (0 : ℚ) < (k : ℚ) := by exact_mod_cast hk
  have hm := Int.ediv_add_emod ⌊q⌋ (k : ℤ)
  have h0 : 0 ≤ ⌊q⌋ % (k : ℤ) := Int.emod_nonneg _ (ne_of_gt hk0)
  have h1 : ⌊q⌋ % (k : ℤ) < (k : ℤ) := Int.emod_lt_of_pos _ hk0
  have hfl : (⌊q⌋ : ℚ) ≤ q := Int.floor_le q
  have hfu : q < ⌊q⌋ + 1 := Int.lt_floor_add_one q
  have hmQ : ((k : ℤ) : ℚ) * (((⌊q⌋ / (k : ℤ)) : ℤ) : ℚ) + (((⌊q⌋ % (k : ℤ)) : ℤ) : ℚ) =
      ((⌊q⌋ : ℤ) : ℚ) := by exact_mod_cast hm
  have h0Q : (0 : ℚ) ≤ (((⌊q⌋ % (k : ℤ)) : ℤ) : ℚ) := by exact_mod_cast h0
  have h1Q : (((⌊q⌋ % (k : ℤ)) : ℤ) : ℚ) < ((k : ℤ) : ℚ) := by exact_mod_cast h1
  have h2 : ⌊q⌋ % (k : ℤ) + 1 ≤ (k : ℤ) := Int.add_one_le_iff.mpr h1
  have h2Q : (((⌊q⌋ % (k : ℤ)) : ℤ) : ℚ) + 1 ≤ ((k : ℤ) : ℚ) := by exact_mod_cast h2
  rw [Int.floor_eq_iff]
  constructor
  · rw [le_div_iff₀ hkQ]
    push_cast at hmQ h0Q ⊢
    nlinarith
  · rw [div_lt_iff₀ hkQ]
    push_cast at hmQ h2Q ⊢
    nlinarith

/-- Helper: the minutes field of the formatter. -/
theorem codeMM (q : ℚ) : ⌊jsMod q 3600 / 60⌋ = ⌊q⌋ / 60 % 60 := by
  unfold jsMod
  have h36 : ⌊q / (3600 : ℚ)⌋ = ⌊q⌋ / 3600 := by
    have h := floor_div_pnat q 3600 (by norm_num)
    simpa using h
  rw [h36]
  have hcast : ((3600 : ℚ)) * (((⌊q⌋ / 3600 : ℤ)) : ℚ) =
      (((3600 * (⌊q⌋ / 3600) : ℤ)) : ℚ) := by push_cast; ring
  rw [hcast]
  have h60 := floor_div_pnat (q - ((3600 * (⌊q⌋ / 3600) : ℤ) : ℚ)) 60 (by norm_num)
  simp only [Nat.cast_ofNat] at h60
  rw [h60, Int.floor_sub_int]
  omega

/-- Helper: the seconds field of the formatter. -/
theorem codeSS (q : ℚ) : ⌊jsMod q 60⌋ = ⌊q⌋ % 60 := by
  unfold jsMod
  have h60 : ⌊q / (60 : ℚ)⌋ = ⌊q⌋ / 60 := by
    have h := floor_div_pnat q 60 (by norm_num)
    simpa using h
  rw [h60]
  have hcast : ((60 : ℚ)) * (((⌊q⌋ / 60 : ℤ)) : ℚ) =
      (((60 * (⌊q⌋ / 60) : ℤ)) : ℚ) := by push_cast; ring
  rw [hcast, Int.floor_sub_int]
  omega

/-- Helper: the frames field operand is the fractional part. -/
theorem codeFF (q : ℚ) : jsMod q 1 = q - (⌊q⌋ : ℚ) := by
  unfold jsMod
  norm_num

/-- Claim C5: the timecode formatter renders `HH:MM:SS:FF` with
`HH = floor(q/3600)`, `MM = floor(q/60) mod 60`, `SS = floor(q) mod 60` and
`FF = floor((q - floor(q)) * framerate)` (the specification's fields, written
with integer division and modulus), each zero-padded to two digits; in
particular 15 seconds at 24 fps renders as 00:00:15:00 and 3661.5 seconds as
01:01:01:12. -/
theorem timecodeFields (q : ℚ) (fr : ℕ) (h0 : 0 ≤ q) (hfr : 0 < fr) :
    formatTC fr q =
      pad2 ⌊q / 3600⌋ ++ ":" ++ pad2 (⌊q / 60⌋ % 60) ++ ":" ++
        pad2 (⌊q⌋ % 60) ++ ":" ++ pad2 ⌊(q - (⌊q⌋ : ℚ)) * (fr : ℚ)⌋ ∧
    formatTC 24 15 = "00:00:15:00" ∧
    formatTC 24 (7323 / 2) = "01:01:01:12" := by
  refine ⟨?_, ?_, ?_⟩
  · unfold formatTC tcFields
    rw [codeMM q, codeSS q, codeFF q]
    have h60 : ⌊q / (60 : ℚ)⌋ = ⌊q⌋ / 60 := by
      have h := floor_div_pnat q 60 (by norm_num)
      simpa using h
    rw [h60]
  · have hf : tcFields 24 15 = (0, 0, 15, 0) := by
      norm_num [tcFields, jsMod, Prod.ext_iff, Int.floor_eq_iff]
    simp only [formatTC, hf]
    decide
  · have hf : tcFields 24 (7323 / 2) = (1, 1, 1, 12) := by
      norm_num [tcFields, jsMod, Prod.ext_iff, Int.floor_eq_iff]
    simp only [formatTC, hf]
    decide

/-- Witness for claim C5: the two concrete timecode renderings. -/
theorem timecodeFieldsWitness :
    formatTC 24 15 = "00:00:15:00" ∧ formatTC 24 (7323 / 2) = "01:01:01:12" :=
  (timecodeFields 15 24 (by norm_num) (by norm_num)).2
